import Mathlib

/-!
Verification of the `transduce` library (Go): a shallow embedding of the
transducer/reducer core in Lean 4, together with theorems checking the
natural-language specification against the code.

Embedding conventions:

* Go `interface{}` values are modelled by the inductive type `Value`
  (nil, integers, strings, slices of values, and the `*reduced` marker).
  A slice `[]interface{}` is embedded through `Value.list : List Value →
  Value`, built from the constructors `vnil`/`vcons` so that decidable
  equality can be derived.  Go `==` on interface values is modelled by
  structural equality on `Value`.
* A Go `ReducerFn` (the Init/Result/Step interface) is modelled by the
  structure `ReducerFn` of three pure functions.  `Init` is effect-free
  in the source, so its thunk is modelled as a plain `Value`.
* A stateful transducer's closed-over mutable variables (counters,
  buffers, the `prior` value) become explicit state parameters of the
  step function, which returns the updated state alongside the
  accumulator — a line-by-line translation of each closure body.
* The driver loop of §6 of the documentation (call `Step` per element,
  stop on a `Reduced` result) is `runLoop`; `runLoopE` is the variant
  for steps that can fail (the division-by-zero panic in `TakeNth`,
  modelled as `Option`).
* The reflection/dynamic-dispatch layer (`wrapMapper`, `apply`, …) is
  out of scope of the spec: user callbacks are taken directly as Lean
  functions `Value → Value` etc.
-/

namespace Transduce

/-- Model of Go `interface{}` values flowing through a pipeline:
nil, ints, strings, slices (`vnil`/`vcons` spine), and the `*reduced`
marker. -/
inductive Value : Type where
  | nil : Value
  | int : Int → Value
  | str : String → Value
  | vnil : Value
  | vcons : Value → Value → Value
  | reduced : Value → Value
deriving DecidableEq, Repr

/-- Embed a `[]interface{}` slice as a `Value`. -/
def Value.list : List Value → Value
  | [] => Value.vnil
  | v :: vs => Value.vcons v (Value.list vs)

/-- The contents of a slice value (empty for non-slices). -/
def Value.asList : Value → List Value
  | Value.vnil => []
  | Value.vcons v vs => v :: vs.asList
  | _ => []

theorem Value.asList_list (l : List Value) : (Value.list l).asList = l := by
  induction l with
  | nil => rfl
  | cons v vs ih => simp [Value.list, Value.asList, ih]

theorem Value.list_injective : Function.Injective Value.list := by
  intro a b h
  have := congrArg Value.asList h
  simpa [Value.asList_list] using this

/-- `Reduced(val)` — wrap a value in the termination marker (`&reduced{val}`). -/
def Reduced (val : Value) : Value := Value.reduced val

/-- `IsReduced(val)` — the type test `val.(*reduced)`. -/
def IsReduced (val : Value) : Bool :=
  match val with
  | Value.reduced _ => true
  | _ => false

/-- `EnsureReduced(val)` — wrap only if not already wrapped. -/
def EnsureReduced (val : Value) : Value :=
  if IsReduced val then val else Reduced val

/-- `Unreduced(val)` — strip one marker if present, else pass through. -/
def Unreduced (val : Value) : Value :=
  match val with
  | Value.reduced v => v
  | v => v

/-- Model of the Go `ReducerFn` interface: the init/result/step triple. -/
structure ReducerFn : Type where
  init : Value
  result : Value → Value
  step : Value → Value → Value

/-- The `Reducer` constructor: build a `ReducerFn` from the three functions. -/
def Reducer (init : Value) (result : Value → Value)
    (step : Value → Value → Value) : ReducerFn :=
  { init := init, result := result, step := step }

/-- A transducer: a function from a reducing function to a reducing function. -/
def Transducer : Type := ReducerFn → ReducerFn

/-- `Reducing(rfn)` — a transducer replacing only the step; init and result
forward to the wrapped sink (`transducer.go` lines 55-68). -/
def Reducing (rfn : Value → Value → Value) : Transducer :=
  fun step =>
    Reducer step.init (fun result => step.result result) rfn

/-- `Completing(rfn)` — terminal reducer with nil init and identity result. -/
def Completing (rfn : Value → Value → Value) : ReducerFn :=
  Reducer Value.nil (fun result => result) rfn

/-- Method `Transducer.Compose` (`transducer.go` lines 11-15):
`(t.Compose(other))(s) = t(other(s))`. -/
def Transducer.Compose (t other : Transducer) : Transducer :=
  fun s => t (other s)

/-- Variadic `Compose(ts...)` (`transducer.go` lines 453-468): empty list is
the identity transducer, a single transducer is returned unchanged, and
longer lists fold left-to-right with `Transducer.Compose`. -/
def Compose (ts : List Transducer) : Transducer :=
  match ts with
  | [] => fun s => s
  | [t] => t
  | t :: rest => rest.foldl Transducer.Compose t

/-- The observation sink: a reducing function that appends each input to a
slice accumulator, never terminating.  The values it accumulates are
exactly the inputs forwarded to it. -/
def appendSink : ReducerFn :=
  Reducer (Value.list [])
    (fun v => v)
    (fun acc input => Value.list (acc.asList ++ [input]))

/-- A sink whose step always signals termination, for exercising the
Reduced-propagation branches. -/
def stopSink : ReducerFn :=
  Reducer Value.nil (fun v => v) (fun acc _ => Reduced acc)

/-- The driver loop of §6 of the documentation, for a stateful step
function with explicit state `σ`: feed the inputs one at a time,
stop as soon as a step returns a Reduced accumulator. -/
def runLoop {σ : Type} (stepFn : σ → Value → Value → σ × Value) :
    σ → Value → List Value → Value
  | _, acc, [] => acc
  | st, acc, input :: rest =>
    match stepFn st acc input with
    | (st2, acc2) =>
      if IsReduced acc2 then acc2 else runLoop stepFn st2 acc2 rest

/-- Driver loop for a fallible step function (`none` models a Go panic):
the run aborts with `none` as soon as a step fails. -/
def runLoopE {σ : Type} (stepFn : σ → Value → Value → σ × Option Value) :
    σ → Value → List Value → Option Value
  | _, acc, [] => some acc
  | st, acc, input :: rest =>
    match stepFn st acc input with
    | (_, none) => none
    | (st2, some acc2) =>
      if IsReduced acc2 then some acc2 else runLoopE stepFn st2 acc2 rest

/-- Two's-complement wrap-around of Go's 64-bit `int` arithmetic:
normalise an integer into `[-2^63, 2^63)`. -/
def wrap64 (x : Int) : Int := (x + 2 ^ 63) % 2 ^ 64 - 2 ^ 63

/-- The step closure of `Take(n)` (`transducer.go` lines 185-203), with the
captured `count` made an explicit state parameter; the returned state is the
value assigned by `count = next`.  Go's `next := count - 1` is machine
`int` arithmetic, so the decrement wraps: at `count = -2^63` it yields
`2^63 - 1`. -/
def takeStep (rf : ReducerFn) (count : Int) (result input : Value) :
    Int × Value :=
  let current := count
  let next := wrap64 (count - 1)
  let result2 := if current > 0 then rf.step result input else result
  (next, if next > 0 then result2 else EnsureReduced result2)

/-- The step closure of `TakeNth(n)` (`transducer.go` lines 219-232), with the
captured `count` explicit.  The Go expression `count % n` panics when
`n = 0`; the panic is modelled by the `none` branch.  For the divisibility
test `count % n == 0`, Go's truncated `%` and Lean's `Int.emod` agree. -/
def takeNthStep (rf : ReducerFn) (n : Int) (count : Int)
    (result input : Value) : Int × Option Value :=
  let count2 := count + 1
  if n = 0 then (count2, none)
  else if count2 % n = 0 then (count2, some (rf.step result input))
  else (count2, some result)

/-- The step closure of `Dedupe()` (`transducer.go` lines 305-318), with the
captured `prior` explicit.  The Go declaration `var prior interface{}`
initialises `prior` to the nil interface value, i.e. `Value.nil`. -/
def dedupeStep (rf : ReducerFn) (prior : Value) (result input : Value) :
    Value × Value :=
  if prior = input then (prior, result)
  else (input, rf.step result input)

/-- The step closure of `PartitionBy(f)` (`transducer.go` lines 346-363).
State: the buffer `part` and the previous key `prior`; `none` models the
sentinel `&mark`, a pointer distinct by construction from every key the
mapper can return. -/
def partitionByStep (f : Value → Value) (rf : ReducerFn)
    (part : List Value) (prior : Option Value) (result input : Value) :
    (List Value × Option Value) × Value :=
  let val := f input
  let pval := prior
  let prior2 : Option Value := some val
  if pval = none ∨ pval = some val then
    ((part ++ [input], prior2), result)
  else
    let ret := rf.step result (Value.list part)
    if IsReduced ret then (([], prior2), ret)
    else (([input], prior2), ret)

/-- The result (finish) closure of `PartitionBy(f)` (`transducer.go` lines
336-345): flush a non-empty buffer, unwrap with `Unreduced`, then call the
sink's result.  (The buffer reset is not returned: finish ends the
instance.) -/
def partitionByResult (rf : ReducerFn) (part : List Value)
    (result : Value) : Value :=
  if part.length > 0 then
    rf.result (Unreduced (rf.step result (Value.list part)))
  else rf.result result

/-- The step closure of `PartitionAll(n)` (`transducer.go` lines 385-394).
State: the buffer `part`. -/
def partitionAllStep (rf : ReducerFn) (n : Int)
    (part : List Value) (result input : Value) : List Value × Value :=
  let part2 := part ++ [input]
  if n = (part2.length : Int) then ([], rf.step result (Value.list part2))
  else (part2, result)

/-- The result (finish) closure of `PartitionAll(n)` (`transducer.go` lines
375-384): flush a non-empty buffer, then call the sink's result on the
flush result directly — unlike `PartitionBy`, no `Unreduced` is applied. -/
def partitionAllResult (rf : ReducerFn) (part : List Value)
    (result : Value) : Value :=
  if part.length > 0 then
    rf.result (rf.step result (Value.list part))
  else rf.result result

/-- The step closure of `Interpose(sep)` (`transducer.go` lines 399-416),
with the captured `started` flag explicit. -/
def interposeStep (rf : ReducerFn) (sep : Value) (started : Bool)
    (result input : Value) : Bool × Value :=
  if started then
    let sepr := rf.step result sep
    if IsReduced sepr then (started, sepr)
    else (started, rf.step sepr input)
  else (true, rf.step result input)

/-- `PreservingReduced(rf)` (`transducer.go` lines 442-451): same init and
result as `rf`; the step re-wraps an already-Reduced return of `rf.step`
in a second `Reduced`, and passes a non-Reduced return through. -/
def PreservingReduced (rf : ReducerFn) : ReducerFn :=
  Reducer rf.init rf.result
    (fun result input =>
      let ret := rf.step result input
      if IsReduced ret then Reduced ret else ret)

/-- `Cat(reduce)` (`transducer.go` lines 420-430): wrap the downstream
reducing function with `PreservingReduced` and hand its step to the
user-supplied traversal strategy `reduceFn`. -/
def Cat (reduceFn : (Value → Value → Value) → Value → Value → Value) :
    Transducer :=
  fun rf =>
    let rrf := PreservingReduced rf
    Reducing (fun result input => reduceFn rrf.step result input) rf

/-- Drive `Take(n)` over `inputs` with the observation sink: the slice in
the returned accumulator is the list of forwarded inputs. -/
def takeRun (n : Int) (inputs : List Value) : Value :=
  runLoop (takeStep appendSink) n appendSink.init inputs

/-- Drive `Dedupe()` over `inputs` with the observation sink, starting from
the initial `prior` of the source, the nil interface value. -/
def dedupeRun (inputs : List Value) : Value :=
  runLoop (dedupeStep appendSink) Value.nil appendSink.init inputs

/-- Drive `Interpose(sep)` over `inputs` with the observation sink. -/
def interposeRun (sep : Value) (inputs : List Value) : Value :=
  runLoop (interposeStep appendSink sep) false appendSink.init inputs

/-- Drive `TakeNth(n)` over `inputs` with the observation sink (`none` when
a step panics). -/
def takeNthRun (n : Int) (inputs : List Value) : Option Value :=
  runLoopE (takeNthStep appendSink n) 0 appendSink.init inputs

/-- Spec-side description of `Dedupe`: forward an input iff it differs
from the last-seen value, updating the last-seen value as it goes. -/
def dedupeForwards (prior : Value) : List Value → List Value
  | [] => []
  | i :: is =>
    if prior = i then dedupeForwards prior is
    else i :: dedupeForwards i is

/-- Spec-side description of `TakeNth`: keep the inputs at 1-indexed
positions divisible by `n`, where `count` inputs were already consumed. -/
def takeNthForwards (n : Int) (count : Int) : List Value → List Value
  | [] => []
  | i :: is =>
    if (count + 1) % n = 0 then i :: takeNthForwards n (count + 1) is
    else takeNthForwards n (count + 1) is

/-! ### Basic lemmas about the embedding -/

theorem IsReduced_list (l : List Value) : IsReduced (Value.list l) = false := by
  cases l <;> rfl

theorem Unreduced_list (l : List Value) :
    Unreduced (Value.list l) = Value.list l := by
  cases l <;> rfl

theorem IsReduced_Reduced (v : Value) : IsReduced (Reduced v) = true := rfl

theorem IsReduced_EnsureReduced (v : Value) :
    IsReduced (EnsureReduced v) = true := by
  unfold EnsureReduced
  split
  · assumption
  · rfl

theorem EnsureReduced_not_reduced (v : Value) (h : IsReduced v = false) :
    EnsureReduced v = Reduced v := by
  simp [EnsureReduced, h]

theorem Unreduced_Reduced (v : Value) : Unreduced (Reduced v) = v := rfl

theorem wrap64_eq (x : Int) (h1 : -(2 ^ 63) ≤ x) (h2 : x < 2 ^ 63) :
    wrap64 x = x := by
  unfold wrap64
  omega

theorem appendSink_step (l : List Value) (i : Value) :
    appendSink.step (Value.list l) i = Value.list (l ++ [i]) := by
  simp [appendSink, Reducer, Value.asList_list]

theorem reduced_ne_self (v : Value) : Value.reduced v ≠ v := by
  intro h
  have hs := congrArg sizeOf h
  simp at hs

theorem foldl_compose_apply (ts : List Transducer) :
    ∀ (t : Transducer) (s : ReducerFn),
      ts.foldl Transducer.Compose t s = t (ts.foldr (fun u r => u r) s) := by
  induction ts with
  | nil => intro t s; rfl
  | cons r rs ih =>
    intro t s
    simp only [List.foldl_cons, List.foldr_cons]
    rw [ih (t.Compose r) s]
    rfl

/-! ### Claim theorems -/

/-- C1: `Compose()` is the identity on reducing functions, `Compose(t1)`
returns `t1` unchanged, and `Compose(t1,…,tn)(s) = t1(t2(…(tn(s))…))`
via the pairwise law `(t1.Compose(t2))(s) = t1(t2(s))`; in particular
`Compose(a,b,c)(s) = a(b(c(s)))`. -/
theorem Compose_spec :
    (∀ s : ReducerFn, Compose [] s = s) ∧
    (∀ t : Transducer, Compose [t] = t) ∧
    (∀ (t1 t2 : Transducer) (s : ReducerFn),
      (t1.Compose t2) s = t1 (t2 s)) ∧
    (∀ (ts : List Transducer) (s : ReducerFn),
      Compose ts s = ts.foldr (fun t r => t r) s) ∧
    (∀ (a b c : Transducer) (s : ReducerFn),
      Compose [a, b, c] s = a (b (c s))) := by
  refine ⟨fun s => rfl, fun t => rfl, fun t1 t2 s => rfl, ?_, ?_⟩
  · intro ts s
    match ts with
    | [] => rfl
    | [t] => rfl
    | t :: r :: rest =>
      show (r :: rest).foldl Transducer.Compose t s = _
      rw [foldl_compose_apply]
      rfl
  · intro a b c s
    show [b, c].foldl Transducer.Compose a s = _
    rw [foldl_compose_apply]
    rfl

/-- C8: the Reduced marker algebra: `Unreduced(Reduced(v)) = v`,
`IsReduced(Reduced(v))` is true, `IsReduced` is false on any non-wrapped
value (and `Unreduced` passes it through), `EnsureReduced(Reduced(v))`
wraps exactly once, and `Reduced(Reduced(v))` stays doubly wrapped. -/
theorem reduced_algebra (v : Value) :
    Unreduced (Reduced v) = v ∧
    IsReduced (Reduced v) = true ∧
    ((∀ w, v ≠ Reduced w) → IsReduced v = false ∧ Unreduced v = v) ∧
    EnsureReduced (Reduced v) = Reduced v ∧
    Reduced (Reduced v) ≠ Reduced v ∧
    Unreduced (Reduced (Reduced v)) = Reduced v ∧
    IsReduced (Unreduced (Reduced (Reduced v))) = true := by
  refine ⟨rfl, rfl, ?_, rfl, ?_, rfl, rfl⟩
  · intro h
    cases v with
    | reduced w => exact absurd rfl (h w)
    | nil => exact ⟨rfl, rfl⟩
    | int n => exact ⟨rfl, rfl⟩
    | str s => exact ⟨rfl, rfl⟩
    | vnil => exact ⟨rfl, rfl⟩
    | vcons a b => exact ⟨rfl, rfl⟩
  · intro h
    exact reduced_ne_self (Value.reduced v) (by simpa [Reduced] using h)

/-- C8 witness: the non-wrapped clause instantiated at the concrete
non-wrapped value `Value.nil`. -/
theorem reduced_algebra_witness :
    IsReduced Value.nil = false ∧ Unreduced Value.nil = Value.nil :=
  (reduced_algebra Value.nil).2.2.1 (fun _w h => Value.noConfusion h)

/-- C9: `Reducing(step)` replaces only the step stage: its init is exactly
the sink's init and its result is exactly the sink's result on every
accumulator, while its step is the supplied step function. -/
theorem Reducing_frame (rfn : Value → Value → Value) (s : ReducerFn) :
    (Reducing rfn s).init = s.init ∧
    (∀ acc, (Reducing rfn s).result acc = s.result acc) ∧
    (Reducing rfn s).step = rfn :=
  ⟨rfl, fun _ => rfl, rfl⟩

/-- C3: `PreservingReduced` wraps an already-Reduced downstream result in a
second `Reduced` and passes a non-Reduced result through unchanged, and
`Cat`'s own step hands the (possibly double-wrapped) result of the
traversal straight through without unwrapping. -/
theorem Cat_preservingReduced (rf : ReducerFn) :
    (∀ result input v, rf.step result input = Reduced v →
      (PreservingReduced rf).step result input = Reduced (Reduced v)) ∧
    (∀ result input, IsReduced (rf.step result input) = false →
      (PreservingReduced rf).step result input = rf.step result input) ∧
    (∀ (reduceFn : (Value → Value → Value) → Value → Value → Value)
        (result input : Value),
      (Cat reduceFn rf).step result input
        = reduceFn (PreservingReduced rf).step result input) := by
  refine ⟨?_, ?_, fun reduceFn result input => rfl⟩
  · intro result input v h
    simp [PreservingReduced, Reducer, h, IsReduced_Reduced]
  · intro result input h
    simp [PreservingReduced, Reducer, h]

/-- C3 witness: against a terminating sink the adapter returns the
double-wrapped marker; against the observation sink results pass through. -/
theorem Cat_preservingReduced_witness :
    (PreservingReduced stopSink).step Value.nil (Value.int 0)
      = Reduced (Reduced Value.nil) ∧
    (PreservingReduced appendSink).step (Value.list []) (Value.int 0)
      = appendSink.step (Value.list []) (Value.int 0) :=
  ⟨(Cat_preservingReduced stopSink).1 Value.nil (Value.int 0) Value.nil rfl,
   (Cat_preservingReduced appendSink).2.1 (Value.list []) (Value.int 0)
     (by decide)⟩

/-- C5: when `PartitionBy(f)` sees a key different from the previous key,
it flushes the buffer as one forwarded item to the downstream step; the
new buffer starts with the current input only if the flush was not
Reduced; a Reduced flush empties the buffer, drops the input and is
returned immediately. -/
theorem partitionBy_step_flush (f : Value → Value) (rf : ReducerFn)
    (part : List Value) (p : Value) (result input : Value)
    (hk : f input ≠ p) :
    (IsReduced (rf.step result (Value.list part)) = false →
      partitionByStep f rf part (some p) result input
        = (([input], some (f input)), rf.step result (Value.list part))) ∧
    (IsReduced (rf.step result (Value.list part)) = true →
      partitionByStep f rf part (some p) result input
        = (([], some (f input)), rf.step result (Value.list part))) := by
  have hp : ¬p = f input := fun e => hk e.symm
  constructor
  · intro h
    simp [partitionByStep, hp, h]
  · intro h
    simp [partitionByStep, hp, h]

/-- C5 witness: a flush against the observation sink starts the new buffer
with the input; a flush against a terminating sink drops the input and
returns the Reduced value. -/
theorem partitionBy_step_flush_witness :
    partitionByStep (fun v => v) appendSink [Value.int 1] (some (Value.int 99))
        (Value.list []) (Value.int 2)
      = (([Value.int 2], some (Value.int 2)),
          appendSink.step (Value.list []) (Value.list [Value.int 1])) ∧
    partitionByStep (fun v => v) stopSink [Value.int 1] (some (Value.int 99))
        Value.nil (Value.int 2)
      = (([], some (Value.int 2)),
          stopSink.step Value.nil (Value.list [Value.int 1])) :=
  ⟨(partitionBy_step_flush (fun v => v) appendSink [Value.int 1] (Value.int 99)
      (Value.list []) (Value.int 2) (by decide)).1 (by decide),
   (partitionBy_step_flush (fun v => v) stopSink [Value.int 1] (Value.int 99)
      Value.nil (Value.int 2) (by decide)).2 (by decide)⟩

/-- C6 (amended): on finish both partitioners forward a non-empty buffer to
the downstream step before invoking the sink's result, but only
`PartitionBy` applies `Unreduced` to the flush result; `PartitionAll`
passes the flush result to the sink's result unmodified, so its result can
receive a Reduced value. -/
theorem partition_finish (rf : ReducerFn) (part : List Value)
    (result : Value) :
    (part ≠ [] →
      partitionByResult rf part result
        = rf.result (Unreduced (rf.step result (Value.list part))) ∧
      partitionAllResult rf part result
        = rf.result (rf.step result (Value.list part))) ∧
    (part = [] →
      partitionByResult rf part result = rf.result result ∧
      partitionAllResult rf part result = rf.result result) := by
  constructor
  · intro h
    have hl : 0 < part.length := List.length_pos.mpr h
    constructor
    · simp [partitionByResult, hl]
    · simp [partitionAllResult, hl]
  · intro h
    subst h
    exact ⟨rfl, rfl⟩

/-- C6 witness: the non-empty-buffer clause instantiated with the
observation sink and buffer `[1]`. -/
theorem partition_finish_witness :
    partitionByResult appendSink [Value.int 1] (Value.list [])
      = appendSink.result
          (Unreduced (appendSink.step (Value.list [])
            (Value.list [Value.int 1]))) ∧
    partitionAllResult appendSink [Value.int 1] (Value.list [])
      = appendSink.result
          (appendSink.step (Value.list []) (Value.list [Value.int 1])) :=
  (partition_finish appendSink [Value.int 1] (Value.list [])).1 (by decide)

/-- C6 counterexample: with a sink whose step terminates and whose result
is the identity, `PartitionAll`'s finish hands the sink's result a Reduced
value — `Unreduced` is not applied, contrary to the claim. -/
theorem partitionAll_finish_reduced_cex :
    partitionAllResult stopSink [Value.int 1] Value.nil
      = Reduced Value.nil ∧
    IsReduced (partitionAllResult stopSink [Value.int 1] Value.nil)
      = true ∧
    partitionByResult stopSink [Value.int 1] Value.nil = Value.nil := by
  decide

/-- C7: `Interpose(sep)` forwards the first input directly; before every
later input it first forwards `sep`, returns immediately if that sub-step
is Reduced, and otherwise forwards the real input on the accumulator the
sub-step produced; over `["a","b","c"]` with separator `"/"` it forwards
`["a","/","b","/","c"]`. -/
theorem interpose_spec (rf : ReducerFn) (sep result input : Value) :
    (interposeStep rf sep false result input = (true, rf.step result input)) ∧
    (IsReduced (rf.step result sep) = true →
      interposeStep rf sep true result input = (true, rf.step result sep)) ∧
    (IsReduced (rf.step result sep) = false →
      interposeStep rf sep true result input
        = (true, rf.step (rf.step result sep) input)) ∧
    interposeRun (Value.str "/") [Value.str "a", Value.str "b", Value.str "c"]
      = Value.list [Value.str "a", Value.str "/", Value.str "b",
          Value.str "/", Value.str "c"] := by
  refine ⟨rfl, ?_, ?_, by decide⟩
  · intro h
    simp [interposeStep, h]
  · intro h
    simp [interposeStep, h]

/-- C7 witness: the separator sub-step clauses instantiated with the
terminating sink and the observation sink. -/
theorem interpose_spec_witness :
    interposeStep stopSink (Value.str "/") true Value.nil (Value.str "b")
      = (true, stopSink.step Value.nil (Value.str "/")) ∧
    interposeStep appendSink (Value.str "/") true (Value.list [])
        (Value.str "b")
      = (true, appendSink.step (appendSink.step (Value.list [])
          (Value.str "/")) (Value.str "b")) :=
  ⟨(interpose_spec stopSink (Value.str "/") Value.nil (Value.str "b")).2.1
      (by decide),
   (interpose_spec appendSink (Value.str "/") (Value.list [])
      (Value.str "b")).2.2.1 (by decide)⟩

theorem takeRun_aux (inputs : List Value) :
    ∀ (n : Int), 1 ≤ n → n < 2 ^ 63 → ∀ (l : List Value),
      Unreduced (runLoop (takeStep appendSink) n (Value.list l) inputs)
        = Value.list (l ++ inputs.take n.toNat) := by
  induction inputs with
  | nil =>
    intro n hn hub l
    simp [runLoop, Unreduced_list]
  | cons i is ih =>
    intro n hn hub l
    by_cases h1 : n = 1
    · subst h1
      have hstep : takeStep appendSink 1 (Value.list l) i
          = (0, Reduced (Value.list (l ++ [i]))) := by
        have h0 : (0:Int) < 1 := by omega
        have hw0 : wrap64 0 = 0 := wrap64_eq 0 (by omega) (by omega)
        simp [takeStep, appendSink_step, h0, hw0,
          EnsureReduced_not_reduced _ (IsReduced_list _)]
      rw [runLoop, hstep]
      simp [IsReduced_Reduced, Unreduced_Reduced]
    · have h0n : (0:Int) < n := by omega
      have h1n : (0:Int) < n - 1 := by omega
      have hw : wrap64 (n - 1) = n - 1 := wrap64_eq _ (by omega) (by omega)
      have hstep : takeStep appendSink n (Value.list l) i
          = (n - 1, Value.list (l ++ [i])) := by
        simp [takeStep, appendSink_step, h0n, h1n, hw]
      have htn : n.toNat = (n - 1).toNat + 1 := by omega
      rw [runLoop, hstep]
      simp only [IsReduced_list, if_false, Bool.false_eq_true]
      rw [ih (n - 1) (by omega) (by omega) (l ++ [i])]
      rw [htn, List.take_succ_cons, List.append_assoc, List.singleton_append]

/-- C2 counterexample: at `n = -2^63`, Go's minimum 64-bit int, the first
step's decrement `count - 1` wraps to `2^63 - 1`, so the step returns the
accumulator un-Reduced, and the following step forwards its input — the
claim's clause "for every n ≤ 0, the first step call forwards nothing and
returns a Reduced accumulator" fails at this concrete input. -/
theorem Take_minInt_cex :
    takeStep appendSink (-(2 ^ 63)) (Value.list []) (Value.int 1)
      = (2 ^ 63 - 1, Value.list []) ∧
    IsReduced (takeStep appendSink (-(2 ^ 63)) (Value.list [])
        (Value.int 1)).2 = false ∧
    takeRun (-(2 ^ 63)) [Value.int 1, Value.int 2]
      = Value.list [Value.int 2] := by
  decide

/-- C2 (amended): within the 64-bit int range, `Take(n)` forwards exactly
the first `n` inputs for `n ≥ 1`; the step that consumes the n-th input
(remaining count 1) itself returns `EnsureReduced` of the just-updated
accumulator; for `-2^63 < n ≤ 0` the first step forwards nothing and
returns a Reduced accumulator; at `n = -2^63` the decrement wraps to
`2^63 - 1` and the first step forwards nothing but returns the
accumulator un-Reduced. -/
theorem Take_spec :
    (∀ (n : Int), 1 ≤ n → n < 2 ^ 63 → ∀ (inputs : List Value),
      Unreduced (takeRun n inputs) = Value.list (inputs.take n.toNat)) ∧
    (∀ (rf : ReducerFn) (result input : Value),
      takeStep rf 1 result input = (0, EnsureReduced (rf.step result input))) ∧
    (∀ (n : Int), -(2 ^ 63) < n → n ≤ 0 →
      ∀ (rf : ReducerFn) (result input : Value),
      takeStep rf n result input = (n - 1, EnsureReduced result) ∧
      IsReduced (takeStep rf n result input).2 = true) ∧
    (∀ (rf : ReducerFn) (result input : Value),
      takeStep rf (-(2 ^ 63)) result input = (2 ^ 63 - 1, result)) := by
  refine ⟨?_, ?_, ?_, ?_⟩
  · intro n hn hub inputs
    simpa using takeRun_aux inputs n hn hub []
  · intro rf result input
    have hw0 : wrap64 0 = 0 := wrap64_eq 0 (by omega) (by omega)
    simp [takeStep, hw0]
  · intro n hlb hn rf result input
    have hng : ¬(n > 0) := by omega
    have hng2 : ¬(0 < n - 1) := by omega
    have hw : wrap64 (n - 1) = n - 1 := wrap64_eq _ (by omega) (by omega)
    have h : takeStep rf n result input = (n - 1, EnsureReduced result) := by
      simp [takeStep, hng, hng2, hw]
    exact ⟨h, by rw [h]; exact IsReduced_EnsureReduced result⟩
  · intro rf result input
    have hc : ¬((0:Int) < -(2 ^ 63)) := by omega
    have hw : wrap64 (-9223372036854775809) = 9223372036854775807 := by
      unfold wrap64
      omega
    simp [takeStep, hc, hw]

/-- C2 witness: `Take(5)` over `[0,…,19]` forwards exactly the first five
inputs, and with `n = 0` the first step forwards nothing and returns a
Reduced accumulator. -/
theorem Take_spec_witness :
    Unreduced (takeRun 5 ((List.range 20).map (fun k => Value.int k)))
      = Value.list [Value.int 0, Value.int 1, Value.int 2, Value.int 3,
          Value.int 4] ∧
    takeStep appendSink 0 (Value.list []) (Value.int 0)
      = (-1, EnsureReduced (Value.list [])) :=
  ⟨(Take_spec.1 5 (by decide) (by decide)
      ((List.range 20).map (fun k => Value.int k))).trans (by decide),
   (Take_spec.2.2.1 0 (by decide) (by decide) appendSink (Value.list [])
      (Value.int 0)).1⟩

theorem dedupeRun_aux (inputs : List Value) :
    ∀ (prior : Value) (l : List Value),
      runLoop (dedupeStep appendSink) prior (Value.list l) inputs
        = Value.list (l ++ dedupeForwards prior inputs) := by
  induction inputs with
  | nil =>
    intro prior l
    simp [runLoop, dedupeForwards]
  | cons i is ih =>
    intro prior l
    by_cases h : prior = i
    · simp [runLoop, dedupeStep, h, IsReduced_list, dedupeForwards, ih]
    · simp [runLoop, dedupeStep, h, IsReduced_list, dedupeForwards,
        appendSink_step, ih, List.append_assoc]

/-- C4 counterexample: the initial last-seen value of `Dedupe()` is Go's
nil interface value, not a sentinel distinct from every real input: a nil
first input is not forwarded, while the claim requires it to be. -/
theorem Dedupe_nil_first_cex :
    dedupeRun [Value.nil] = Value.list [] ∧
    dedupeRun [Value.nil] ≠ Value.list [Value.nil] := by
  decide

/-- C4 (amended): `Dedupe()` forwards an input iff it differs from the
last-seen value, but the initial last-seen value is the nil interface
value rather than a dedicated sentinel; hence the first input is forwarded
iff it is not nil. -/
theorem Dedupe_spec :
    (∀ (inputs : List Value),
      dedupeRun inputs = Value.list (dedupeForwards Value.nil inputs)) ∧
    (∀ (i : Value) (inputs : List Value), i ≠ Value.nil →
      dedupeRun (i :: inputs) = Value.list (i :: dedupeForwards i inputs)) ∧
    (∀ (rf : ReducerFn) (prior result input : Value), prior = input →
      dedupeStep rf prior result input = (prior, result)) ∧
    (∀ (rf : ReducerFn) (prior result input : Value), prior ≠ input →
      dedupeStep rf prior result input = (input, rf.step result input)) := by
  refine ⟨?_, ?_, ?_, ?_⟩
  · intro inputs
    simpa using dedupeRun_aux inputs Value.nil []
  · intro i inputs h
    have h2 : ¬(Value.nil = i) := fun e => h e.symm
    have := dedupeRun_aux (i :: inputs) Value.nil []
    simpa [dedupeForwards, h2] using this
  · intro rf prior result input h
    simp [dedupeStep, h]
  · intro rf prior result input h
    simp [dedupeStep, h]

/-- C4 witness: `Dedupe()` over `[1,1,2,2,2,3,1]` forwards `[1,2,3,1]`,
obtained from the amended theorem with a non-nil first input. -/
theorem Dedupe_spec_witness :
    dedupeRun [Value.int 1, Value.int 1, Value.int 2, Value.int 2,
        Value.int 2, Value.int 3, Value.int 1]
      = Value.list [Value.int 1, Value.int 2, Value.int 3, Value.int 1] :=
  (Dedupe_spec.2.1 (Value.int 1)
      [Value.int 1, Value.int 2, Value.int 2, Value.int 2, Value.int 3,
        Value.int 1] (by decide)).trans (by decide)

theorem takeNthRun_aux (inputs : List Value) :
    ∀ (n : Int), ¬n = 0 → ∀ (count : Int) (l : List Value),
      runLoopE (takeNthStep appendSink n) count (Value.list l) inputs
        = some (Value.list (l ++ takeNthForwards n count inputs)) := by
  induction inputs with
  | nil =>
    intro n hn count l
    simp [runLoopE, takeNthForwards]
  | cons i is ih =>
    intro n hn count l
    by_cases hd : (count + 1) % n = 0
    · simp [runLoopE, takeNthStep, hn, hd, IsReduced_list, appendSink_step,
        takeNthForwards, ih n hn, List.append_assoc]
    · simp [runLoopE, takeNthStep, hn, hd, IsReduced_list,
        takeNthForwards, ih n hn]

/-- C10: for `n ≥ 1` the `TakeNth(n)` step is total: a run forwards exactly
the inputs at 1-indexed positions divisible by `n` and never produces a
Reduced result; for `n = 0` the division-by-zero branch is reached on the
very first step call, so the error branch is reachable without the
precondition `n ≠ 0`. -/
theorem TakeNth_spec :
    (∀ (n : Int), 1 ≤ n → ∀ (inputs : List Value),
      takeNthRun n inputs
        = some (Value.list (takeNthForwards n 0 inputs)) ∧
      IsReduced (Value.list (takeNthForwards n 0 inputs)) = false) ∧
    (∀ (rf : ReducerFn) (n count : Int) (result input : Value), ¬n = 0 →
      ((takeNthStep rf n count result input).2).isSome = true) ∧
    (∀ (rf : ReducerFn) (result input : Value),
      takeNthStep rf 0 0 result input = (1, none)) ∧
    (∀ (input : Value), takeNthRun 0 [input] = none) := by
  refine ⟨?_, ?_, ?_, ?_⟩
  · intro n hn inputs
    have hn0 : ¬n = 0 := by omega
    refine ⟨?_, IsReduced_list _⟩
    simpa using takeNthRun_aux inputs n hn0 0 []
  · intro rf n count result input hn
    by_cases hd : (count + 1) % n = 0 <;> simp [takeNthStep, hn, hd]
  · intro rf result input
    simp [takeNthStep]
  · intro input
    simp [takeNthRun, runLoopE, takeNthStep, appendSink, Reducer]

/-- C10 witness: `TakeNth(2)` over `[1,…,6]` forwards `[2,4,6]`; the step
is total away from `n = 0`; with `n = 0` the first step call panics. -/
theorem TakeNth_spec_witness :
    takeNthRun 2 [Value.int 1, Value.int 2, Value.int 3, Value.int 4,
        Value.int 5, Value.int 6]
      = some (Value.list [Value.int 2, Value.int 4, Value.int 6]) ∧
    ((takeNthStep appendSink 2 0 (Value.list []) (Value.int 1)).2).isSome
      = true ∧
    takeNthRun 0 [Value.int 1] = none :=
  ⟨((TakeNth_spec.1 2 (by decide) [Value.int 1, Value.int 2, Value.int 3,
      Value.int 4, Value.int 5, Value.int 6]).1).trans (by decide),
   TakeNth_spec.2.1 appendSink 2 0 (Value.list []) (Value.int 1) (by decide),
   TakeNth_spec.2.2.2 (Value.int 1)⟩

end Transduce
